/-
  Verification of the adaptive-agent core of the Neural Arena repository.

  Shallow embedding conventions used throughout this file:
  * JavaScript numbers are modelled as `ℚ` (all arithmetic the agents perform
    is on dyadic/decimal rationals; `±Infinity` sentinels in the Connect-4
    search are modelled by `⊥`/`⊤` of `WithBot (WithTop ℚ)`).
  * The mutable module-level state of each game module is modelled as an
    explicit state record; each JS function that mutates it becomes a pure
    function from state to state.
  * The Connect-4 search mutates one shared board via `dropPiece`/`undoPiece`;
    since undo exactly inverts drop (proved below for the boards the search
    visits), the recursion is embedded functionally: every recursive call
    receives the board with the piece dropped.
  * String keys built by `join(',')` over integer arrays are injective images
    of the underlying tuples/lists, so tables keyed by such strings are
    modelled as tables keyed by the tuples/lists themselves.
-/
import Mathlib

/-! # Definitions -/

namespace Connect4

/-! ### Board model (src/js/games/connect4.js)

`board` is a ROWS×COLS array, `0 = empty`, `1 = player`, `2 = AI`.
We model it as a function `Nat → Nat → Nat` (row, column); only indices
`r < ROWS`, `c < COLS` are ever read or written by the embedded code. -/

def ROWS : Nat := 6

def COLS : Nat := 7

abbrev Board := Nat → Nat → Nat

def newBoard : Board := fun _ _ => 0

def setCell (b : Board) (r c v : Nat) : Board :=
  fun r' c' => if r' = r ∧ c' = c then v else b r' c'

/-- `getValidCols(b)`: columns whose top cell is empty. -/
def getValidCols (b : Board) : List Nat :=
  (List.range COLS).filter (fun c => b 0 c == 0)

/-- The loop of `dropPiece`: `scanDrop b col n` scans rows `n-1, n-2, …, 0`
and returns the first row holding `0`, exactly the JS
`for (let r = ROWS-1; r >= 0; r--) if (b[r][col] === 0) …`. -/
def scanDrop (b : Board) (col : Nat) : Nat → Option Nat
  | 0 => none
  | n + 1 => if b n col = 0 then some n else scanDrop b col n

def dropRow (b : Board) (col : Nat) : Option Nat :=
  scanDrop b col ROWS

/-- Functional embedding of `dropPiece(b, col, player)`: the board after the
drop (unchanged when the column is full, where the JS returns -1 and writes
nothing). -/
def dropPiece (b : Board) (col player : Nat) : Board :=
  match dropRow b col with
  | some r => setCell b r col player
  | none => b

/-- The loop of `undoPiece`: `scanUndo b col fuel r` scans rows
`r, r+1, …` (`fuel` rows in total) and returns the first row holding a
non-zero value, exactly the JS
`for (let r = 0; r < ROWS; r++) if (b[r][col] !== 0) …`. -/
def scanUndo (b : Board) (col : Nat) : Nat → Nat → Option Nat
  | 0, _ => none
  | fuel + 1, r => if b r col ≠ 0 then some r else scanUndo b col fuel (r + 1)

def undoRow (b : Board) (col : Nat) : Option Nat :=
  scanUndo b col ROWS 0

/-- Functional embedding of `undoPiece(b, col)`. -/
def undoPiece (b : Board) (col : Nat) : Board :=
  match undoRow b col with
  | some r => setCell b r col 0
  | none => b

/-- A column is bottom-justified: below any occupied cell every cell is
occupied (row 0 is the top of the board, row ROWS-1 the bottom). -/
def ColumnJustified (b : Board) (c : Nat) : Prop :=
  ∀ r, r < ROWS → b r c ≠ 0 → ∀ r', r < r' → r' < ROWS → b r' c ≠ 0

/-- A board reachable by legal drops: every column is bottom-justified. -/
def BoardJustified (b : Board) : Prop :=
  ∀ c, c < COLS → ColumnJustified b c

/-! ### Evaluation and search (connect4.js lines 88-243) -/

def dirs : List (Int × Int) := [(0, 1), (1, 0), (1, 1), (1, -1)]

/-- The four cells `(r + dr*i, c + dc*i)`, `i = 0..3`, of one window. -/
def windowCells (r c : Nat) (d : Int × Int) : List (Int × Int) :=
  (List.range 4).map (fun i => ((r : Int) + d.1 * i, (c : Int) + d.2 * i))

def inBounds (p : Int × Int) : Bool :=
  0 ≤ p.1 && p.1 < (ROWS : Int) && 0 ≤ p.2 && p.2 < (COLS : Int)

def cellAt (b : Board) (p : Int × Int) : Nat := b p.1.toNat p.2.toNat

/-- `checkWin(b, player)` as a Boolean; the JS returns the winning line and
the search only tests it for truthiness. A window wins iff all four cells
are in bounds and owned by `player` (the JS loop breaks on the first cell
that is out of bounds or not the player's). -/
def checkWin (b : Board) (player : Nat) : Bool :=
  (List.range ROWS).any fun r =>
    (List.range COLS).any fun c =>
      dirs.any fun d =>
        (windowCells r c d).all (fun p => inBounds p && cellAt b p == player)

/-- `evalWindow(cells)` inside `evaluate` (lines 123-137). -/
def evalWindow (b : Board) (cells : List (Int × Int)) : ℚ :=
  let ai := (cells.filter (fun p => cellAt b p == 2)).length
  let pl := (cells.filter (fun p => cellAt b p == 1)).length
  let empty := (cells.filter (fun p => cellAt b p != 2 && cellAt b p != 1)).length
  if ai = 4 then 10000
  else if pl = 4 then -10000
  else if ai = 3 ∧ empty = 1 then 50
  else if pl = 3 ∧ empty = 1 then -80
  else if ai = 2 ∧ empty = 2 then 10
  else if pl = 2 ∧ empty = 2 then -10
  else 0

/-- Centre-column bonus of `evaluate` (lines 117-120). -/
def centerScore (b : Board) : ℚ :=
  ((List.range ROWS).map (fun r =>
    (if b r 3 = 2 then (3 : ℚ) else 0) + (if b r 3 = 1 then (-3 : ℚ) else 0))).sum

/-- The all-windows sum of `evaluate` (lines 139-153); a window contributes
only when all four cells are in bounds. -/
def windowsScore (b : Board) : ℚ :=
  ((List.range ROWS).map (fun r =>
    ((List.range COLS).map (fun c =>
      (dirs.map (fun d =>
        let cells := windowCells r c d
        if cells.all inBounds then evalWindow b cells else 0)).sum)).sum)).sum

/-- The learned-opening-weight term of `evaluate` (lines 156-162);
`if (openingWeight[c])` is the JS truthiness test, i.e. weight ≠ 0. -/
def openingScore (ow : Nat → ℚ) (b : Board) : ℚ :=
  ((List.range COLS).map (fun c =>
    if ow c ≠ 0 then
      ((List.range ROWS).map (fun r => if b r c = 2 then ow c * 2 else 0)).sum
    else 0)).sum

/-- `evaluate(b)` (lines 112-165) parameterised by the learned
`openingWeight` table. -/
def evaluate (ow : Nat → ℚ) (b : Board) : ℚ :=
  centerScore b + windowsScore b + openingScore ow b

/-- The value domain of the search: rationals extended with the
`-Infinity` / `Infinity` sentinels used by the JS. -/
abbrev XQ := WithBot (WithTop ℚ)

def ofQ (q : ℚ) : XQ := ((q : WithTop ℚ) : XQ)

/-- The maximizing loop of `minimax` (lines 175-185): fold over the valid
columns carrying `(maxEval, alpha)`, breaking when `beta <= alpha`. -/
def abMaxLoop (child : Nat → XQ → XQ → XQ) (beta : XQ) :
    List Nat → XQ → XQ → XQ
  | [], maxEval, _ => maxEval
  | col :: rest, maxEval, alpha =>
    let ev := child col alpha beta
    let maxEval' := max maxEval ev
    let alpha' := max alpha ev
    if beta ≤ alpha' then maxEval' else abMaxLoop child beta rest maxEval' alpha'

/-- The minimizing loop of `minimax` (lines 186-197). -/
def abMinLoop (child : Nat → XQ → XQ → XQ) (alpha : XQ) :
    List Nat → XQ → XQ → XQ
  | [], minEval, _ => minEval
  | col :: rest, minEval, beta =>
    let ev := child col alpha beta
    let minEval' := min minEval ev
    let beta' := min beta ev
    if beta' ≤ alpha then minEval' else abMinLoop child alpha rest minEval' beta'

/-- `minimax(b, depth, alpha, beta, maximizing)` (lines 167-198).
The JS guard `valid.length === 0 || depth === 0` is split into the
`isEmpty` test and the `0` case of the depth match. -/
def minimax (ow : Nat → ℚ) : Nat → Board → XQ → XQ → Bool → XQ
  | depth, b, alpha, beta, maximizing =>
    if checkWin b 2 then ofQ (100000 + (depth : ℚ))
    else if checkWin b 1 then ofQ (-(100000 + (depth : ℚ)))
    else if (getValidCols b).isEmpty then ofQ (evaluate ow b)
    else match depth with
      | 0 => ofQ (evaluate ow b)
      | d + 1 =>
        if maximizing then
          abMaxLoop (fun col a' b' => minimax ow d (dropPiece b col 2) a' b' false)
            beta (getValidCols b) ⊥ alpha
        else
          abMinLoop (fun col a' b' => minimax ow d (dropPiece b col 1) a' b' true)
            alpha (getValidCols b) ⊤ beta

/-- Exhaustive unpruned minimax at the same depth: identical to `minimax`
with the alpha-beta window and the break removed (the comparison point named
by the specification's pruning-correctness requirement). -/
def minimaxUnpruned (ow : Nat → ℚ) : Nat → Board → Bool → XQ
  | depth, b, maximizing =>
    if checkWin b 2 then ofQ (100000 + (depth : ℚ))
    else if checkWin b 1 then ofQ (-(100000 + (depth : ℚ)))
    else if (getValidCols b).isEmpty then ofQ (evaluate ow b)
    else match depth with
      | 0 => ofQ (evaluate ow b)
      | d + 1 =>
        if maximizing then
          (getValidCols b).foldl
            (fun acc col => max acc (minimaxUnpruned ow d (dropPiece b col 2) false)) ⊥
        else
          (getValidCols b).foldl
            (fun acc col => min acc (minimaxUnpruned ow d (dropPiece b col 1) true)) ⊤

/-- The column-selection loop of `aiMove` (lines 207-219): `bestScore`
starts at `-Infinity`, a column replaces the best only on strictly greater
score. -/
def aiBestLoop (score : Nat → XQ) : List Nat → Nat → XQ → Nat
  | [], bestCol, _ => bestCol
  | col :: rest, bestCol, bestScore =>
    let s := score col
    if bestScore < s then aiBestLoop score rest col s
    else aiBestLoop score rest bestCol bestScore

/-- `aiMove()`'s chosen column: each valid column is tried by dropping the
AI piece and searching with the full initial window `(-Infinity, Infinity)`
at depth `aiDepth - 1`; `bestCol` starts at `valid[0]`. -/
def aiMove (ow : Nat → ℚ) (aiDepth : Nat) (b : Board) : Nat :=
  let valid := getValidCols b
  aiBestLoop (fun col => minimax ow (aiDepth - 1) (dropPiece b col 2) ⊥ ⊤ false)
    valid (valid.headD 0) ⊥

/-- The same selection loop evaluated with exhaustive unpruned minimax. -/
def aiMoveUnpruned (ow : Nat → ℚ) (aiDepth : Nat) (b : Board) : Nat :=
  let valid := getValidCols b
  aiBestLoop (fun col => minimaxUnpruned ow (aiDepth - 1) (dropPiece b col 2) false)
    valid (valid.headD 0) ⊥

/-! ### Session state (connect4.js lines 31-59) -/

structure C4State where
  board : Board
  moveHistory : List Nat
  playerOpenings : List Nat → Nat
  openingWeight : Nat → ℚ
  aiDepth : Nat
  gamesPlayed : Nat

/-- `init(c)` (lines 41-59): resets the board, move history and search depth
(seeded from the profile's played count); the module-level `playerOpenings`
and `openingWeight` objects are NOT reassigned. -/
def c4Init (gamesPlayedStat : Nat) (st : C4State) : C4State :=
  { st with
    board := newBoard
    moveHistory := []
    gamesPlayed := gamesPlayedStat
    aiDepth := min 7 (5 + gamesPlayedStat / 3) }

/-- The weight-accumulation loop of `endGame` (lines 319-323):
`openingWeight[c] = (openingWeight[c] || 0) + colCounts[c] * 0.5`. -/
def c4AccumWeights (ow : Nat → ℚ) (colCounts : Nat → Nat) : Nat → ℚ :=
  fun c => if c < COLS then ow c + (colCounts c : ℚ) * (1 / 2) else ow c

end Connect4

namespace PatternDuel

/-! ### Pattern Duel (src/js/games/pattern-duel.js) -/

/-- `SYMBOLS[i].beats` (lines 17-23). -/
def beats : Nat → List Int
  | 0 => [2, 3]
  | 1 => [0, 4]
  | 2 => [1, 3]
  | 3 => [1, 4]
  | 4 => [0, 2]
  | _ => []

/-- One `markov[key]` object: entries `(nextChoice, count)` in ascending
key order (JS objects enumerate integer-like keys ascending). -/
abbrev Transitions := List (Nat × Nat)

/-- The markov table, keyed by the joined n-gram suffix. -/
abbrev MarkovTable := List Nat → Option Transitions

/-- `Object.values(transitions).reduce((a, b) => a + b, 0)`. -/
def totalCount (ts : Transitions) : Nat := ts.foldl (fun a p => a + p.2) 0

/-- The modal-choice loop of `predictPlayer` (lines 91-97): scan the
entries keeping the first with strictly greatest count; `bestChoice`
starts at -1 with `bestCount` 0. -/
def modalChoice (ts : Transitions) : Int × Nat :=
  ts.foldl (fun acc p => if p.2 > acc.2 then ((p.1 : Int), p.2) else acc) (-1, 0)

/-- `history.slice(-order)`. -/
def suffix (l : List Nat) (n : Nat) : List Nat := l.drop (l.length - n)

/-- One iteration of the order-4-down-to-1 scan of `predictPlayer`
(lines 82-104): `none` when the order is skipped (history shorter than the
order, no table entry for the suffix key, or total observations < 2),
otherwise the proposed modal choice with confidence
`(bestCount / total) * (1 + order * 0.3)`. -/
def orderEval (mk : MarkovTable) (hist : List Nat) (order : Nat) :
    Option (Int × ℚ) :=
  if hist.length < order then none
  else
    match mk (suffix hist order) with
    | none => none
    | some ts =>
      let total := totalCount ts
      if total < 2 then none
      else
        let m := modalChoice ts
        some (m.1, ((m.2 : ℚ) / (total : ℚ)) * (1 + (order : ℚ) * (3 / 10)))

/-- The loop body folded over `(prediction, bestConfidence)`; a proposal
replaces the accumulator only on strictly greater confidence
(`if (confidence > bestConfidence)`). -/
def predictStep (mk : MarkovTable) (hist : List Nat) (acc : Int × ℚ)
    (order : Nat) : Int × ℚ :=
  match orderEval mk hist order with
  | none => acc
  | some pc => if acc.2 < pc.2 then pc else acc

/-- `predictPlayer()` (lines 77-107); -1 encodes "no prediction". -/
def predictPlayer (mk : MarkovTable) (hist : List Nat) : Int :=
  ([4, 3, 2, 1].foldl (predictStep mk hist) (-1, 0)).1

/-- `markov[key][choice] = (markov[key][choice] || 0) + 1`, keeping the
ascending-key enumeration order of a JS object with integer-like keys. -/
def bumpEntry : Transitions → Nat → Transitions
  | [], c => [(c, 1)]
  | (k, n) :: rest, c =>
    if k = c then (k, n + 1) :: rest
    else if c < k then (c, 1) :: (k, n) :: rest
    else (k, n) :: bumpEntry rest c

/-- `updateMarkov(choice)` (lines 66-75): for every order 1..4 for which the
(pre-append) history is long enough, bump `markov[suffix][choice]`. -/
def updateMarkov (mk : MarkovTable) (hist : List Nat) (choice : Nat) :
    MarkovTable :=
  [1, 2, 3, 4].foldl
    (fun t order =>
      if order ≤ hist.length then
        fun key =>
          if key = suffix hist order then some (bumpEntry ((t key).getD []) choice)
          else t key
      else t)
    mk

/-- A concrete learned table: after a session in which the suffix `[0, 1]`
was followed by choice 2 thirteen times and choice 3 seven times, while the
suffix `[1]` was followed by choice 3 sixteen times and choice 4 four
times. -/
def exampleTable : MarkovTable := fun key =>
  if key = [0, 1] then some [(2, 13), (3, 7)]
  else if key = [1] then some [(3, 16), (4, 4)]
  else none

/-- `chooseCounter(predictedPlayer)` (lines 109-119): random on -1;
otherwise the first symbol whose beats list contains the prediction;
trailing random fallback. The two `Math.random` draws enter as `rnd`,
`rnd'`. -/
def chooseCounter (predictedPlayer : Int) (rnd rnd' : Nat) : Nat :=
  if predictedPlayer = -1 then rnd
  else
    match (List.range 5).find? (fun i => (beats i).contains predictedPlayer) with
    | some i => i
    | none => rnd'

/-- `getResult(player, ai)` (lines 121-125), from the player's view. -/
def getResult (player ai : Nat) : String :=
  if player = ai then "draw"
  else if (beats player).contains (ai : Int) then "win"
  else "loss"

/-! ### Session state (lines 25-64) -/

structure PDState where
  markov : MarkovTable
  playerHistory : List Nat
  aiHistory : List Nat
  resultHistory : List String
  playerScore : Nat
  aiScore : Nat
  draws : Nat
  round : Nat
  gameOver : Bool

/-- Page-load state: the module-level `markov` starts empty. -/
def pdFresh : PDState :=
  { markov := fun _ => none, playerHistory := [], aiHistory := [],
    resultHistory := [], playerScore := 0, aiScore := 0, draws := 0,
    round := 0, gameOver := false }

/-- `init(c)` (lines 42-64): resets scores, round, histories and flags; the
module-level `markov` table is NOT reassigned. -/
def pdInit (st : PDState) : PDState :=
  { st with
    playerScore := 0, aiScore := 0, draws := 0, round := 0,
    gameOver := false, playerHistory := [], aiHistory := [],
    resultHistory := [] }

/-- The learning core of `playerChoose(choice)` (lines 127-184): the markov
table is updated from the pre-choice history, then the choice is appended
and the round advances. (Score/streak/UI updates do not touch the table and
are elided here; `aiHistory` records the AI's pick.) -/
def pdRecordChoice (st : PDState) (choice aiChoice : Nat) : PDState :=
  { st with
    markov := updateMarkov st.markov st.playerHistory choice
    playerHistory := st.playerHistory ++ [choice]
    aiHistory := st.aiHistory ++ [aiChoice]
    round := st.round + 1 }

end PatternDuel

namespace Pong

/-! ### Pong Q-learning (src/js/games/pong.js) -/

/-- The five components of `discretize`'s string key. -/
abbrev SKey := Int × Int × Int × Int × Int

/-- `discretize(bx, by, bvx, bvy, ay)` (lines 41-49); `W = 800`, `H = 500`. -/
def discretize (bx bY bvx bvy ay : ℚ) : SKey :=
  (⌊bx / (800 / 8)⌋, ⌊bY / (500 / 6)⌋,
   if bvx > 0 then 1 else 0,
   if bvy > 0 then 1 else if bvy < 0 then -1 else 0,
   ⌊ay / (500 / 6)⌋)

/-- The Q-table: `Q[state][action]`, missing entries distinguished. -/
abbrev QTable := SKey → Int → Option ℚ

/-- `getQ(state, action)` (lines 51-53): a missing entry reads as 0. -/
def getQ (t : QTable) (s : SKey) (a : Int) : ℚ := (t s a).getD 0

/-- `setQ(state, action, value)` (lines 55-58). -/
def setQ (t : QTable) (s : SKey) (a : Int) (v : ℚ) : QTable :=
  fun s' a' => if s' = s ∧ a' = a then some v else t s' a'

def LEARNING_RATE : ℚ := 3 / 10

def DISCOUNT : ℚ := 9 / 10

def EPSILON_START : ℚ := 3 / 10

/-- `qLearnStep(reward)` (lines 71-78), with the current discretized state
passed in (the JS recomputes it from the live ball/paddle); `last` is the
pending `(lastState, lastAction)` pair, `null` before the first decision. -/
def qLearnStep (t : QTable) (last : Option (SKey × Int)) (cur : SKey)
    (reward : ℚ) : QTable :=
  match last with
  | none => t
  | some la =>
    let maxFutureQ := max (getQ t cur (-1)) (max (getQ t cur 0) (getQ t cur 1))
    let oldQ := getQ t la.1 la.2
    let newQ := oldQ + LEARNING_RATE * (reward + DISCOUNT * maxFutureQ - oldQ)
    setQ t la.1 la.2 newQ

/-! ### Session state and events (lines 27-39, 105-106, 151-233) -/

structure PongState where
  Q : QTable
  epsilon : ℚ
  last : Option (SKey × Int)
  playerScore : Nat
  aiScore : Nat
  aiConfidence : ℚ
  playerHitZones : List Nat

/-- Page-load state: the module-level `Q` starts empty, `lastState` null. -/
def pongFresh : PongState :=
  { Q := fun _ _ => none, epsilon := EPSILON_START, last := none,
    playerScore := 0, aiScore := 0, aiConfidence := 0,
    playerHitZones := [0, 0, 0, 0, 0] }

/-- `init(c)` (lines 120-134): resets scores, aim tracking, confidence and
epsilon; the module-level `Q`, `lastState`, `lastAction` are NOT
reassigned. -/
def pongInit (st : PongState) : PongState :=
  { st with
    playerScore := 0, aiScore := 0, playerHitZones := [0, 0, 0, 0, 0],
    aiConfidence := 0, epsilon := EPSILON_START }

/-- The learning-relevant events of a pong session. Each reward event
carries the discretized state at the moment `qLearnStep` fires; a decision
carries the stored `(state, action)`; a player hit carries the sign of
`ball.vy` after the deflection (which determines the aim zone). -/
inductive PongEvent where
  | decide (s : SKey) (a : Int)
  | playerHits (cur : SKey) (vyPos : Bool)
  | aiHits (cur : SKey)
  | aiScores (cur : SKey)
  | playerScores (cur : SKey)

/-- `aimZone = floor((vy > 0 ? 1 : 0) * 2.5 + 1.25)` (line 190), clamped to
0..4: zone 3 when `vy > 0`, zone 1 otherwise. -/
def aimZone (vyPos : Bool) : Nat := if vyPos then 3 else 1

def bumpZone (zones : List Nat) (i : Nat) : List Nat :=
  zones.set i (zones.getD i 0 + 1)

/-- The state change each event performs (`aiDecide` lines 105-106 stores
the pending pair; `update` lines 194, 209, 213-221, 223-230 reward with
-1, +1, +10, -10; only the AI-scores branch touches `epsilon`:
`epsilon = Math.max(0.05, epsilon * 0.95)`, and `aiConfidence =
Math.min(100, aiConfidence + 5)`). -/
def pongStep (st : PongState) : PongEvent → PongState
  | .decide s a => { st with last := some (s, a) }
  | .playerHits cur vyPos =>
    { st with
      Q := qLearnStep st.Q st.last cur (-1)
      playerHitZones := bumpZone st.playerHitZones (aimZone vyPos) }
  | .aiHits cur => { st with Q := qLearnStep st.Q st.last cur 1 }
  | .aiScores cur =>
    { st with
      Q := qLearnStep st.Q st.last cur 10
      aiScore := st.aiScore + 1
      epsilon := max (1 / 20) (st.epsilon * (19 / 20))
      aiConfidence := min 100 (st.aiConfidence + 5) }
  | .playerScores cur =>
    { st with
      Q := qLearnStep st.Q st.last cur (-10)
      playerScore := st.playerScore + 1 }

def pongRun (st : PongState) (evs : List PongEvent) : PongState :=
  evs.foldl pongStep st

end Pong

namespace DodgeArena

/-! ### Dodge Arena heatmap (src/js/games/dodge-arena.js) -/

def GRID : Nat := 20

def W : ℚ := 700

def H : ℚ := 500

structure DAState where
  heatmap : Nat → Nat → Nat
  totalSamples : Nat
  score : Nat
  wave : Nat
  hp : Nat
  gameOver : Bool
  playerVelHistory : List (ℚ × ℚ)

/-- `init(c)` (lines 96-118) including `initHeatmap()` (lines 44-53): every
tracked structure, the density grid included, is recreated fresh. -/
def daInit (st : DAState) : DAState :=
  { st with
    score := 0, wave := 1, hp := 3, gameOver := false,
    playerVelHistory := [],
    heatmap := fun _ _ => 0, totalSamples := 0 }

def daFresh : DAState :=
  { heatmap := fun _ _ => 0, totalSamples := 0, score := 0, wave := 1,
    hp := 3, gameOver := false, playerVelHistory := [] }

/-- `updateHeatmap(x, y)` (lines 55-62): bin the position, increment that
cell and the total, provided the bin is inside the grid. -/
def updateHeatmap (st : DAState) (x y : ℚ) : DAState :=
  let gx := ⌊x / W * (GRID : ℚ)⌋
  let gy := ⌊y / H * (GRID : ℚ)⌋
  if 0 ≤ gx ∧ gx < (GRID : Int) ∧ 0 ≤ gy ∧ gy < (GRID : Int) then
    { st with
      heatmap := fun i j =>
        if i = gx.toNat ∧ j = gy.toNat then st.heatmap i j + 1 else st.heatmap i j,
      totalSamples := st.totalSamples + 1 }
  else st

/-- `n` successive ticks of `updateHeatmap` at the fixed position `(x, y)`
(the per-tick call `updateHeatmap(player.x, player.y)` of `update`, line
198, for a player who stays put). -/
def repeatObserve (x y : ℚ) : Nat → DAState → DAState
  | 0, st => st
  | n + 1, st => updateHeatmap (repeatObserve x y n st) x y

/-- The row-major cell enumeration of the nested loops in
`getHeatmapHotspot`. -/
def cellList : List (Nat × Nat) :=
  ((List.range GRID).map (fun i => (List.range GRID).map (fun j => (i, j)))).flatten

/-- The max-scan of `getHeatmapHotspot` (lines 66-75): `(maxVal, maxGx,
maxGy)` starts at `(0, GRID/2, GRID/2)` and a cell replaces it only on
strictly greater count. -/
def hotspotScan (hm : Nat → Nat → Nat) : Nat × Nat × Nat :=
  cellList.foldl
    (fun acc p => if hm p.1 p.2 > acc.1 then (hm p.1 p.2, p.1, p.2) else acc)
    (0, GRID / 2, GRID / 2)

structure Hotspot where
  x : ℚ
  y : ℚ
  confidence : ℚ
deriving DecidableEq

/-- `getHeatmapHotspot()` (lines 64-81): centre point of the max cell;
confidence `maxVal / totalSamples` once `totalSamples > 50`, else 0. -/
def getHeatmapHotspot (st : DAState) : Hotspot :=
  let m := hotspotScan st.heatmap
  { x := ((m.2.1 : ℚ) + 1 / 2) * (W / (GRID : ℚ)),
    y := ((m.2.2 : ℚ) + 1 / 2) * (H / (GRID : ℚ)),
    confidence :=
      if st.totalSamples > 50 then (m.1 : ℚ) / (st.totalSamples : ℚ) else 0 }

end DodgeArena

namespace MemoryMatch

/-! ### Memory Match difficulty adaptation (src/js/games/memory-match.js) -/

/-- The adaptation block at the end of `checkMatch` (lines 234-244), run
once when the round completes: returns the new difficulty and the direction
tag. `avgMovesPer = moves / totalPairs` is the per-pair move average. -/
def adaptDifficulty (difficulty moves totalPairs consecutiveMatches : Nat) :
    Nat × String :=
  let avgMovesPer : ℚ := (moves : ℚ) / (totalPairs : ℚ)
  if avgMovesPer < 5 / 2 ∧ consecutiveMatches > 3 then
    (min 5 (difficulty + 1), "harder")
  else if avgMovesPer > 4 then (max 1 (difficulty - 1), "easier")
  else (difficulty, "stable")

end MemoryMatch

/-! # Proofs -/

namespace Connect4

lemma scanDrop_eq_some (b : Board) (col : Nat) :
    ∀ n r, scanDrop b col n = some r →
      r < n ∧ b r col = 0 ∧ ∀ r', r < r' → r' < n → b r' col ≠ 0 := by
  intro n
  induction n with
  | zero => intro r h; simp [scanDrop] at h
  | succ n ih =>
    intro r h
    by_cases hcell : b n col = 0
    · simp [scanDrop, hcell] at h
      subst h
      exact ⟨Nat.lt_succ_self n, hcell, fun r' h1 h2 => absurd h2 (by omega)⟩
    · simp [scanDrop, hcell] at h
      obtain ⟨h1, h2, h3⟩ := ih r h
      refine ⟨Nat.lt_succ_of_lt h1, h2, ?_⟩
      intro r' hr1 hr2
      rcases Nat.lt_succ_iff_lt_or_eq.mp hr2 with h' | h'
      · exact h3 r' hr1 h'
      · subst h'; exact hcell

lemma scanDrop_eq_none (b : Board) (col : Nat) :
    ∀ n, scanDrop b col n = none → ∀ r, r < n → b r col ≠ 0 := by
  intro n
  induction n with
  | zero => intro _ r h; omega
  | succ n ih =>
    intro h r hr
    by_cases hcell : b n col = 0
    · simp [scanDrop, hcell] at h
    · simp [scanDrop, hcell] at h
      rcases Nat.lt_succ_iff_lt_or_eq.mp hr with h' | h'
      · exact ih h r h'
      · subst h'; exact hcell

lemma scanUndo_finds (b : Board) (col r₀ : Nat) :
    ∀ fuel r, r ≤ r₀ → r₀ < r + fuel → b r₀ col ≠ 0 →
      (∀ r', r ≤ r' → r' < r₀ → b r' col = 0) →
      scanUndo b col fuel r = some r₀ := by
  intro fuel
  induction fuel with
  | zero => intro r h1 h2; omega
  | succ fuel ih =>
    intro r h1 h2 h3 h4
    by_cases hr : r = r₀
    · subst hr; simp [scanUndo, h3]
    · have hlt : r < r₀ := by omega
      have hz : b r col = 0 := h4 r (Nat.le_refl r) hlt
      simp [scanUndo, hz]
      exact ih (r + 1) (by omega) (by omega) h3 (fun r' a1 a2 => h4 r' (by omega) a2)

/-- C5: on any board reachable by legal drops (every column
bottom-justified) and any non-full column `c`, dropping a piece and then
undoing that column restores the exact prior board: `undoPiece` is the
exact inverse of `dropPiece`. -/
theorem undoPiece_dropPiece (b : Board) (c p : Nat)
    (hjust : BoardJustified b) (hc : c < COLS) (hfree : b 0 c = 0)
    (hp : p ≠ 0) :
    undoPiece (dropPiece b c p) c = b := by
  -- the drop lands in the lowest empty row r₀
  rcases hdrop : dropRow b c with _ | r₀
  · exact absurd hfree (scanDrop_eq_none b c ROWS hdrop 0 (by norm_num [ROWS]))
  obtain ⟨hr₀, hempty, hbelow⟩ := scanDrop_eq_some b c ROWS r₀ hdrop
  -- every row above r₀ is empty (bottom-justification)
  have habove : ∀ r', r' < r₀ → b r' c = 0 := by
    intro r' hr'
    by_contra hne
    exact hjust c hc r' (by omega) hne r₀ hr' hr₀ hempty
  -- the undo scan finds exactly r₀ again
  have hundo : undoRow (dropPiece b c p) c = some r₀ := by
    unfold undoRow
    apply scanUndo_finds
    · omega
    · omega
    · simp [dropPiece, hdrop, setCell]; exact hp
    · intro r' _ hr'
      simp only [dropPiece, hdrop, setCell]
      rw [if_neg (fun h => absurd h.1 (by omega : r' ≠ r₀))]
      exact habove r' hr'
  -- clearing the dropped cell restores the board
  unfold undoPiece
  rw [hundo]
  funext r' c'
  by_cases h : r' = r₀ ∧ c' = c
  · obtain ⟨h1, h2⟩ := h
    subst h1; subst h2
    simp [setCell, dropPiece, hdrop, hempty]
  · simp [setCell, h, dropPiece, hdrop]

/-- C5 witness: dropping and undoing the centre column of the empty board. -/
theorem undoPiece_dropPiece_witness :
    BoardJustified newBoard ∧ 3 < COLS ∧ newBoard 0 3 = 0 ∧ (1 : Nat) ≠ 0 ∧
      undoPiece (dropPiece newBoard 3 1) 3 = newBoard := by
  have hjust : BoardJustified newBoard := fun c _ r _ hb => absurd rfl hb
  exact ⟨hjust, by norm_num [COLS], rfl, by norm_num,
    undoPiece_dropPiece newBoard 3 1 hjust (by norm_num [COLS]) rfl (by norm_num)⟩

end Connect4

namespace PatternDuel

/-- C10: the beats relation over the five symbols is a complete tournament:
for distinct symbols exactly one beats the other, and each symbol beats
exactly two and is beaten by exactly two; consequently for every predicted
symbol 0..4 the counter scan always finds a symbol (both random draws are
ignored, so the trailing fallback is unreachable): `chooseCounter` returns
the first symbol whose beats list contains the prediction, and
`getResult prediction counter` is always a loss for the predicted player. -/
theorem chooseCounter_beats_prediction :
    (∀ a b : Fin 5, a ≠ b →
      (beats (a : Nat)).contains ((b : Nat) : Int)
        = !(beats (b : Nat)).contains ((a : Nat) : Int)) ∧
    (∀ a : Fin 5,
      ((List.range 5).filter
        (fun x => (beats (a : Nat)).contains ((x : Int)))).length = 2 ∧
      ((List.range 5).filter
        (fun x => (beats x).contains (((a : Nat)) : Int))).length = 2) ∧
    (∀ p : Fin 5,
      ((List.range 5).find?
        (fun i => (beats i).contains ((p : Nat) : Int))).isSome) ∧
    (∀ p : Fin 5, ∀ rnd rnd' : Nat,
      chooseCounter ((p : Nat) : Int) rnd rnd' = [1, 2, 0, 0, 1].getD (p : Nat) 0 ∧
      getResult (p : Nat) (chooseCounter ((p : Nat) : Int) rnd rnd') = "loss") := by
  refine ⟨by decide, by decide, by decide, ?_⟩
  intro p rnd rnd'
  fin_cases p <;> exact ⟨rfl, rfl⟩

/-- C10 witness: the tournament condition instantiated at the distinct pair
(FIRE, WATER). -/
theorem chooseCounter_beats_prediction_witness :
    (0 : Fin 5) ≠ (1 : Fin 5) ∧
    (beats ((0 : Fin 5) : Nat)).contains (((1 : Fin 5) : Nat) : Int)
      = !(beats ((1 : Fin 5) : Nat)).contains (((0 : Fin 5) : Nat) : Int) :=
  ⟨by decide, chooseCounter_beats_prediction.1 0 1 (by decide)⟩

end PatternDuel

namespace Pong

/-- C4: when a reward is observed with a pending previous (state, action)
pair, the stored estimate for exactly that pair becomes
`old + 0.3 * (reward + 0.9 * max over the three actions of the current
state's value − old)`, where missing entries read as 0 (`getQ`); every
other entry is untouched; with no pending decision the observation is a
learning no-op. -/
theorem qLearnStep_update (t : QTable) (last : Option (SKey × Int))
    (cur : SKey) (reward : ℚ) :
    (last = none → qLearnStep t last cur reward = t) ∧
    ∀ ls la, last = some (ls, la) →
      qLearnStep t last cur reward ls la =
        some (getQ t ls la
          + (3 / 10) * (reward
            + (9 / 10) * max (getQ t cur (-1)) (max (getQ t cur 0) (getQ t cur 1))
            - getQ t ls la)) ∧
      ∀ s a, ¬(s = ls ∧ a = la) → qLearnStep t last cur reward s a = t s a := by
  constructor
  · intro h; subst h; rfl
  · intro ls la h; subst h
    constructor
    · simp [qLearnStep, setQ, LEARNING_RATE, DISCOUNT]
    · intro s a hne
      simp only [qLearnStep, setQ]
      rw [if_neg hne]

/-- C4 witness: one TD update of an empty table at a concrete state pair,
and the no-op on an empty pending pair. -/
theorem qLearnStep_update_witness :
    (qLearnStep (fun _ _ => none) none ((0, 0, 0, 0, 0) : SKey) 10
      = (fun _ _ => none)) ∧
    qLearnStep (fun _ _ => none) (some (((0, 0, 0, 0, 0) : SKey), 1))
        ((0, 0, 0, 0, 0) : SKey) 10 ((0, 0, 0, 0, 0) : SKey) 1 =
      some (getQ (fun _ _ => none) ((0, 0, 0, 0, 0) : SKey) 1
        + (3 / 10) * (10
          + (9 / 10) * max (getQ (fun _ _ => none) ((0, 0, 0, 0, 0) : SKey) (-1))
              (max (getQ (fun _ _ => none) ((0, 0, 0, 0, 0) : SKey) 0)
                (getQ (fun _ _ => none) ((0, 0, 0, 0, 0) : SKey) 1))
          - getQ (fun _ _ => none) ((0, 0, 0, 0, 0) : SKey) 1)) :=
  ⟨(qLearnStep_update (fun _ _ => none) none ((0, 0, 0, 0, 0) : SKey) 10).1 rfl,
   ((qLearnStep_update (fun _ _ => none) (some (((0, 0, 0, 0, 0) : SKey), 1))
      ((0, 0, 0, 0, 0) : SKey) 10).2 ((0, 0, 0, 0, 0) : SKey) 1 rfl).1⟩

end Pong

namespace MemoryMatch

/-- C8: given a current tier in the valid range 1..5, the post-round tier
stays in 1..5 and moves by at most one in either direction, however extreme
the round's `moves`/`consecutiveMatches` figures are. -/
theorem adaptDifficulty_clamped (d moves totalPairs consec : Nat)
    (h1 : 1 ≤ d) (h5 : d ≤ 5) :
    1 ≤ (adaptDifficulty d moves totalPairs consec).1 ∧
    (adaptDifficulty d moves totalPairs consec).1 ≤ 5 ∧
    (adaptDifficulty d moves totalPairs consec).1 ≤ d + 1 ∧
    d ≤ (adaptDifficulty d moves totalPairs consec).1 + 1 := by
  unfold adaptDifficulty
  dsimp only
  split_ifs <;> dsimp only <;> omega

/-- C8 witness: a perfect-efficiency round (one move per pair, long match
streak) at tier 3 moves the tier to at most 4. -/
theorem adaptDifficulty_clamped_witness :
    1 ≤ (adaptDifficulty 3 12 12 5).1 ∧
    (adaptDifficulty 3 12 12 5).1 ≤ 5 ∧
    (adaptDifficulty 3 12 12 5).1 ≤ 3 + 1 ∧
    3 ≤ (adaptDifficulty 3 12 12 5).1 + 1 :=
  adaptDifficulty_clamped 3 12 12 5 (by norm_num) (by norm_num)

end MemoryMatch

namespace PatternDuel

/-- C6 counterexample: the SequencePredictor's n-gram table is NOT created
fresh at session start. After two rounds of a session (choices 0 then 1)
the table holds the order-1 entry `markov["0"] = {1: 1}`; running `init`
to start a new session leaves that entry in place, whereas the
empty/initial table (`pdFresh`) has no entry for that key. -/
theorem init_keeps_markov_counterexample :
    (pdInit (pdRecordChoice (pdRecordChoice pdFresh 0 0) 1 0)).markov [0]
        = some [(1, 1)] ∧
      pdFresh.markov [0] = none := by
  constructor <;> rfl

end PatternDuel

/-- C6 amended: at session start the SpatialTargeter's density grid is
recreated fresh (zero grid, zero samples), but the module-level learned
structures — the ValueLearningAgent's Q table (and its pending pair), the
SequencePredictor's markov table, and the AdaptiveSearchAgent's opening
weights — are not reassigned by the games' `init` functions and so carry
over unchanged from the previous session of the same page lifetime. -/
theorem session_init_learned_state (pd : PatternDuel.PDState)
    (pg : Pong.PongState) (c4 : Connect4.C4State) (da : DodgeArena.DAState)
    (g : Nat) :
    (PatternDuel.pdInit pd).markov = pd.markov ∧
    (Pong.pongInit pg).Q = pg.Q ∧
    (Pong.pongInit pg).last = pg.last ∧
    (Connect4.c4Init g c4).openingWeight = c4.openingWeight ∧
    (DodgeArena.daInit da).heatmap = (fun _ _ => 0) ∧
    (DodgeArena.daInit da).totalSamples = 0 :=
  ⟨rfl, rfl, rfl, rfl, rfl, rfl⟩

namespace Pong

lemma pongStep_epsilon_bounds (st : PongState) (ev : PongEvent)
    (h : 1 / 20 ≤ st.epsilon) :
    1 / 20 ≤ (pongStep st ev).epsilon ∧ (pongStep st ev).epsilon ≤ st.epsilon := by
  cases ev with
  | aiScores cur =>
    refine ⟨le_max_left _ _, max_le h ?_⟩
    have h0 : (0 : ℚ) ≤ st.epsilon := le_trans (by norm_num) h
    calc st.epsilon * (19 / 20) ≤ st.epsilon * 1 := by
          exact mul_le_mul_of_nonneg_left (by norm_num) h0
      _ = st.epsilon := mul_one _
  | decide s a => exact ⟨h, le_refl _⟩
  | playerHits cur vyPos => exact ⟨h, le_refl _⟩
  | aiHits cur => exact ⟨h, le_refl _⟩
  | playerScores cur => exact ⟨h, le_refl _⟩

lemma pongRun_epsilon_bounds (evs : List PongEvent) :
    ∀ st : PongState, 1 / 20 ≤ st.epsilon →
      1 / 20 ≤ (pongRun st evs).epsilon ∧ (pongRun st evs).epsilon ≤ st.epsilon := by
  induction evs with
  | nil => exact fun st h => ⟨h, le_refl _⟩
  | cons ev rest ih =>
    intro st h
    have hstep := pongStep_epsilon_bounds st ev h
    have hrest := ih (pongStep st ev) hstep.1
    exact ⟨hrest.1, le_trans hrest.2 hstep.2⟩

/-- C7: within a session epsilon starts at 0.3; it changes only on events
where the agent scores, each such event mapping it to
`max(0.05, epsilon * 0.95)`; along any event sequence it never drops below
the 0.05 floor, and appending any further event never increases it. -/
theorem epsilon_floor_monotone (st : PongState) :
    (pongInit st).epsilon = 3 / 10 ∧
    (∀ evs : List PongEvent, 1 / 20 ≤ (pongRun (pongInit st) evs).epsilon) ∧
    (∀ evs : List PongEvent, ∀ ev : PongEvent,
      (pongRun (pongInit st) (evs ++ [ev])).epsilon
        ≤ (pongRun (pongInit st) evs).epsilon) ∧
    (∀ st' : PongState, ∀ ev : PongEvent,
      (∀ cur, ev ≠ PongEvent.aiScores cur) →
      (pongStep st' ev).epsilon = st'.epsilon) ∧
    (∀ st' : PongState, ∀ cur,
      (pongStep st' (PongEvent.aiScores cur)).epsilon
        = max (1 / 20) (st'.epsilon * (19 / 20))) := by
  have hinit : (1 : ℚ) / 20 ≤ (pongInit st).epsilon := by
    simp [pongInit, EPSILON_START]
    norm_num
  refine ⟨rfl, ?_, ?_, ?_, fun _ _ => rfl⟩
  · exact fun evs => (pongRun_epsilon_bounds evs (pongInit st) hinit).1
  · intro evs ev
    have hrun := (pongRun_epsilon_bounds evs (pongInit st) hinit).1
    have : pongRun (pongInit st) (evs ++ [ev])
        = pongStep (pongRun (pongInit st) evs) ev := by
      simp [pongRun, List.foldl_append]
    rw [this]
    exact (pongStep_epsilon_bounds _ ev hrun).2
  · intro st' ev hne
    cases ev with
    | aiScores cur => exact absurd rfl (hne cur)
    | decide s a => rfl
    | playerHits cur vyPos => rfl
    | aiHits cur => rfl
    | playerScores cur => rfl

/-- C7 witness: the non-score clause applied to a concrete decision event,
and the floor after one concrete score event from the fresh session. -/
theorem epsilon_floor_monotone_witness :
    (pongStep pongFresh (PongEvent.decide (0, 0, 0, 0, 0) 0)).epsilon
        = pongFresh.epsilon ∧
      1 / 20 ≤ (pongRun (pongInit pongFresh)
        [PongEvent.aiScores (0, 0, 0, 0, 0)]).epsilon :=
  ⟨(epsilon_floor_monotone pongFresh).2.2.2.1 pongFresh
      (PongEvent.decide (0, 0, 0, 0, 0) 0)
      (fun _ h => PongEvent.noConfusion h),
   (epsilon_floor_monotone pongFresh).2.1 [PongEvent.aiScores (0, 0, 0, 0, 0)]⟩

end Pong

namespace PatternDuel

lemma totalCount_foldl (ts : Transitions) :
    ∀ n : Nat, ts.foldl (fun a p => a + p.2) n = n + (ts.map Prod.snd).sum := by
  induction ts with
  | nil => intro n; simp
  | cons p rest ih =>
    intro n
    rw [List.foldl_cons, ih (n + p.2)]
    simp
    omega

lemma modalFold_le (ts : Transitions) :
    ∀ acc : Int × Nat,
      acc.2 ≤ (ts.foldl
        (fun acc p => if p.2 > acc.2 then ((p.1 : Int), p.2) else acc) acc).2 ∧
      ∀ p, p ∈ ts → p.2 ≤ (ts.foldl
        (fun acc p => if p.2 > acc.2 then ((p.1 : Int), p.2) else acc) acc).2 := by
  induction ts with
  | nil => exact fun acc => ⟨le_refl _, fun p hp => absurd hp (List.not_mem_nil p)⟩
  | cons q rest ih =>
    intro acc
    rw [List.foldl_cons]
    by_cases h : q.2 > acc.2
    · rw [if_pos h]
      refine ⟨le_trans (le_of_lt h) (ih ((q.1 : Int), q.2)).1, ?_⟩
      intro p hp
      rcases List.mem_cons.mp hp with h' | h'
      · rw [h']; exact (ih ((q.1 : Int), q.2)).1
      · exact (ih ((q.1 : Int), q.2)).2 p h'
    · rw [if_neg h]
      refine ⟨(ih acc).1, ?_⟩
      intro p hp
      rcases List.mem_cons.mp hp with h' | h'
      · subst h'; exact le_trans (Nat.le_of_not_lt h) (ih acc).1
      · exact (ih acc).2 p h'

lemma modalChoice_pos (ts : Transitions) (h : 2 ≤ totalCount ts) :
    1 ≤ (modalChoice ts).2 := by
  have hsum : totalCount ts = (ts.map Prod.snd).sum := by
    rw [totalCount, totalCount_foldl ts 0]
    omega
  by_contra hlt
  push_neg at hlt
  have hall : ∀ p ∈ ts, p.2 = 0 := by
    intro p hp
    have hle := (modalFold_le ts (-1, 0)).2 p hp
    rw [modalChoice] at hlt
    omega
  have hzero : (ts.map Prod.snd).sum = 0 := by
    apply List.sum_eq_zero
    intro x hx
    rcases List.mem_map.mp hx with ⟨p, hp, rfl⟩
    exact hall p hp
  omega

lemma orderEval_conf_pos (mk : MarkovTable) (hist : List Nat) (o : Nat)
    (pc : Int × ℚ) (h : orderEval mk hist o = some pc) : 0 < pc.2 := by
  unfold orderEval at h
  by_cases hlen : hist.length < o
  · rw [if_pos hlen] at h; exact Option.noConfusion h
  rw [if_neg hlen] at h
  rcases hmk : mk (suffix hist o) with _ | ts
  · rw [hmk] at h; exact Option.noConfusion h
  rw [hmk] at h
  dsimp only at h
  by_cases htot : totalCount ts < 2
  · rw [if_pos htot] at h; exact Option.noConfusion h
  rw [if_neg htot] at h
  have hpc := Option.some.inj h
  rw [← hpc]
  have hmodal : 1 ≤ (modalChoice ts).2 := modalChoice_pos ts (by omega)
  have h1 : (0 : ℚ) < ((modalChoice ts).2 : ℚ) / (totalCount ts : ℚ) := by
    apply div_pos
    · exact_mod_cast Nat.lt_of_lt_of_le Nat.zero_lt_one hmodal
    · exact_mod_cast Nat.lt_of_lt_of_le Nat.zero_lt_two (Nat.le_of_not_lt htot)
  have h2 : (0 : ℚ) < 1 + (o : ℚ) * (3 / 10) := by positivity
  exact mul_pos h1 h2

lemma predictFold_snd_mono (mk : MarkovTable) (hist : List Nat) :
    ∀ (l : List Nat) (acc : Int × ℚ),
      acc.2 ≤ (l.foldl (predictStep mk hist) acc).2 := by
  intro l
  induction l with
  | nil => exact fun acc => le_refl _
  | cons o rest ih =>
    intro acc
    rw [List.foldl_cons]
    refine le_trans ?_ (ih (predictStep mk hist acc o))
    unfold predictStep
    rcases hoe : orderEval mk hist o with _ | pc
    · exact le_refl _
    · by_cases hlt : acc.2 < pc.2
      · simp [hlt]
        exact le_of_lt hlt
      · simp [hlt]

lemma predictFold_ge (mk : MarkovTable) (hist : List Nat) :
    ∀ (l : List Nat) (acc : Int × ℚ) (o : Nat) (pc : Int × ℚ),
      o ∈ l → orderEval mk hist o = some pc →
      pc.2 ≤ (l.foldl (predictStep mk hist) acc).2 := by
  intro l
  induction l with
  | nil => exact fun acc o pc h _ => absurd h (List.not_mem_nil o)
  | cons q rest ih =>
    intro acc o pc hmem hoe
    rw [List.foldl_cons]
    rcases List.mem_cons.mp hmem with h | h
    · subst h
      refine le_trans ?_ (predictFold_snd_mono mk hist rest (predictStep mk hist acc o))
      unfold predictStep
      rw [hoe]
      by_cases hlt : acc.2 < pc.2
      · simp [hlt]
      · simp [hlt]
        exact le_of_not_lt hlt
    · exact ih (predictStep mk hist acc q) o pc h hoe

lemma predictFold_cases (mk : MarkovTable) (hist : List Nat) :
    ∀ (l : List Nat) (acc : Int × ℚ),
      l.foldl (predictStep mk hist) acc = acc ∨
      ∃ o pc, o ∈ l ∧ orderEval mk hist o = some pc ∧
        l.foldl (predictStep mk hist) acc = pc := by
  intro l
  induction l with
  | nil => exact fun acc => Or.inl rfl
  | cons q rest ih =>
    intro acc
    rw [List.foldl_cons]
    rcases hoe : orderEval mk hist q with _ | pc
    · have hstep : predictStep mk hist acc q = acc := by
        unfold predictStep; rw [hoe]
      rw [hstep]
      rcases ih acc with h | ⟨o, pc, h1, h2, h3⟩
      · exact Or.inl h
      · exact Or.inr ⟨o, pc, List.mem_cons_of_mem q h1, h2, h3⟩
    · by_cases hlt : acc.2 < pc.2
      · have hstep : predictStep mk hist acc q = pc := by
          unfold predictStep; rw [hoe]; simp [hlt]
        rw [hstep]
        rcases ih pc with h | ⟨o, pc', h1, h2, h3⟩
        · exact Or.inr ⟨q, pc, List.mem_cons_self q rest, hoe, h⟩
        · exact Or.inr ⟨o, pc', List.mem_cons_of_mem q h1, h2, h3⟩
      · have hstep : predictStep mk hist acc q = acc := by
          unfold predictStep; rw [hoe]; simp [hlt]
        rw [hstep]
        rcases ih acc with h | ⟨o, pc', h1, h2, h3⟩
        · exact Or.inl h
        · exact Or.inr ⟨o, pc', List.mem_cons_of_mem q h1, h2, h3⟩

/-- C2: `predictPlayer` returns -1 ("none") when every order 4..1 is
skipped (history too short, no table entry, or fewer than 2 total
observations — the skip conditions and the confidence formula
`(modal count / total) × (1 + order × 0.3)` are `orderEval`); and whenever
at least one order qualifies, the returned prediction is the modal proposal
of a qualifying order whose confidence is greatest among all qualifying
orders. -/
theorem predictPlayer_spec (mk : MarkovTable) (hist : List Nat) :
    ((∀ o, o ∈ [4, 3, 2, 1] → orderEval mk hist o = none) →
      predictPlayer mk hist = -1) ∧
    ∀ o₀ pc₀, o₀ ∈ [4, 3, 2, 1] → orderEval mk hist o₀ = some pc₀ →
      ∃ o pc, o ∈ [4, 3, 2, 1] ∧ orderEval mk hist o = some pc ∧
        predictPlayer mk hist = pc.1 ∧
        ∀ o' pc', o' ∈ [4, 3, 2, 1] → orderEval mk hist o' = some pc' →
          pc'.2 ≤ pc.2 := by
  constructor
  · intro h
    have h4 := h 4 (by simp)
    have h3 := h 3 (by simp)
    have h2 := h 2 (by simp)
    have h1 := h 1 (by simp)
    simp [predictPlayer, predictStep, h4, h3, h2, h1]
  · intro o₀ pc₀ ho₀ hpc₀
    rcases predictFold_cases mk hist [4, 3, 2, 1] (-1, 0) with hc | ⟨o, pc, ho, hoe, heq⟩
    · have hge := predictFold_ge mk hist [4, 3, 2, 1] (-1, 0) o₀ pc₀ ho₀ hpc₀
      rw [hc] at hge
      have hpos := orderEval_conf_pos mk hist o₀ pc₀ hpc₀
      norm_num at hge
      exact absurd hpos (not_lt.mpr hge)
    · refine ⟨o, pc, ho, hoe, ?_, ?_⟩
      · unfold predictPlayer
        rw [heq]
      · intro o' pc' ho' hpc'
        have := predictFold_ge mk hist [4, 3, 2, 1] (-1, 0) o' pc' ho' hpc'
        rw [heq] at this
        exact this

lemma orderEval_ex4 : orderEval exampleTable [0, 1] 4 = none := rfl

lemma orderEval_ex3 : orderEval exampleTable [0, 1] 3 = none := rfl

lemma orderEval_ex2 : orderEval exampleTable [0, 1] 2 = some (2, 26 / 25) := by
  norm_num [orderEval, exampleTable, suffix, totalCount, modalChoice]

lemma orderEval_ex1 : orderEval exampleTable [0, 1] 1 = some (3, 26 / 25) := by
  norm_num [orderEval, exampleTable, suffix, totalCount, modalChoice]

lemma predictPlayer_ex : predictPlayer exampleTable [0, 1] = 2 := by
  norm_num [predictPlayer, predictStep, orderEval_ex4, orderEval_ex3,
    orderEval_ex2, orderEval_ex1]

lemma orderEval_empty (o : Nat) (ho : o ∈ [4, 3, 2, 1]) :
    orderEval (fun _ => none) [0, 1] o = none := by
  have h : o = 4 ∨ o = 3 ∨ o = 2 ∨ o = 1 := by simpa using ho
  rcases h with rfl | rfl | rfl | rfl <;> rfl

/-- C2 witness: the qualifying clause applied to the concrete learned table
at order 2, and the none clause applied to the empty table. -/
theorem predictPlayer_spec_witness :
    ((2 : Nat) ∈ [4, 3, 2, 1] ∧
      orderEval exampleTable [0, 1] 2 = some (2, 26 / 25)) ∧
    (∃ o pc, o ∈ [4, 3, 2, 1] ∧ orderEval exampleTable [0, 1] o = some pc ∧
      predictPlayer exampleTable [0, 1] = pc.1 ∧
      ∀ o' pc', o' ∈ [4, 3, 2, 1] → orderEval exampleTable [0, 1] o' = some pc' →
        pc'.2 ≤ pc.2) ∧
    predictPlayer (fun _ => none) [0, 1] = -1 :=
  ⟨⟨by simp, orderEval_ex2⟩,
   (predictPlayer_spec exampleTable [0, 1]).2 2 (2, 26 / 25) (by simp) orderEval_ex2,
   (predictPlayer_spec (fun _ => none) [0, 1]).1 orderEval_empty⟩

/-- C3 counterexample: with history [0, 1] over the concrete learned table,
orders 2 and 1 both qualify with exactly equal confidences 26/25 but
different modal choices (2 versus 3), orders 4 and 3 are skipped, and
`predictPlayer` returns 2 — the proposal of the *earlier*-evaluated higher
order, not the lower order's 3 as the claim asserts. -/
theorem predict_tie_counterexample :
    orderEval exampleTable [0, 1] 2 = some (2, 26 / 25) ∧
    orderEval exampleTable [0, 1] 1 = some (3, 26 / 25) ∧
    orderEval exampleTable [0, 1] 4 = none ∧
    orderEval exampleTable [0, 1] 3 = none ∧
    predictPlayer exampleTable [0, 1] = 2 ∧ (2 : Int) ≠ 3 :=
  ⟨orderEval_ex2, orderEval_ex1, orderEval_ex4, orderEval_ex3,
   predictPlayer_ex, by decide⟩

lemma predictFold_keep (mk : MarkovTable) (hist : List Nat) :
    ∀ (l : List Nat) (pc : Int × ℚ),
      (∀ o' pc', o' ∈ l → orderEval mk hist o' = some pc' → pc'.2 ≤ pc.2) →
      l.foldl (predictStep mk hist) pc = pc := by
  intro l
  induction l with
  | nil => exact fun pc _ => rfl
  | cons q rest ih =>
    intro pc h
    rw [List.foldl_cons]
    have hstep : predictStep mk hist pc q = pc := by
      unfold predictStep
      rcases hoe : orderEval mk hist q with _ | pc'
      · rfl
      · have := h q pc' (List.mem_cons_self q rest) hoe
        simp [not_lt.mpr this]
    rw [hstep]
    exact ih pc (fun o' pc' h1 h2 => h o' pc' (List.mem_cons_of_mem q h1) h2)

lemma predictFold_below (mk : MarkovTable) (hist : List Nat) (M : ℚ) :
    ∀ (l : List Nat) (acc : Int × ℚ), acc.2 < M →
      (∀ o' pc', o' ∈ l → orderEval mk hist o' = some pc' → pc'.2 < M) →
      (l.foldl (predictStep mk hist) acc).2 < M := by
  intro l
  induction l with
  | nil => exact fun acc h _ => h
  | cons q rest ih =>
    intro acc hacc h
    rw [List.foldl_cons]
    refine ih (predictStep mk hist acc q) ?_
      (fun o' pc' h1 h2 => h o' pc' (List.mem_cons_of_mem q h1) h2)
    unfold predictStep
    rcases hoe : orderEval mk hist q with _ | pc'
    · exact hacc
    · have hlt := h q pc' (List.mem_cons_self q rest) hoe
      by_cases hrep : acc.2 < pc'.2
      · simp [hrep]
        exact hlt
      · simp [hrep]
        exact hacc

lemma predict_first_max (mk : MarkovTable) (hist : List Nat)
    (l₁ l₂ : List Nat) (o : Nat) (pc : Int × ℚ)
    (hoe : orderEval mk hist o = some pc)
    (hpre : ∀ o' pc', o' ∈ l₁ → orderEval mk hist o' = some pc' → pc'.2 < pc.2)
    (hpost : ∀ o' pc', o' ∈ l₂ → orderEval mk hist o' = some pc' → pc'.2 ≤ pc.2)
    (hacc : (0 : ℚ) < pc.2) :
    (l₁ ++ o :: l₂).foldl (predictStep mk hist) (-1, 0) = pc := by
  rw [List.foldl_append, List.foldl_cons]
  set x := l₁.foldl (predictStep mk hist) ((-1 : Int), (0 : ℚ)) with hx
  have h1 : x.2 < pc.2 :=
    predictFold_below mk hist pc.2 l₁ (-1, 0) hacc hpre
  have h2 : predictStep mk hist x o = pc := by
    unfold predictStep
    rw [hoe]
    simp [h1]
  rw [h2]
  exact predictFold_keep mk hist l₂ pc hpost

/-- C3 amended: when two orders qualify with exactly equal confidences that
are maximal over the scan (every order evaluated before the higher of the
two either is skipped or has strictly smaller confidence), the prediction is
the modal choice of the order evaluated *earlier* in the descending scan,
i.e. the higher order wins the tie (the comparison is strict:
`confidence > bestConfidence`). -/
theorem predict_tie_prefers_higher (mk : MarkovTable) (hist : List Nat)
    (o₁ o₂ : Nat) (pc₁ pc₂ : Int × ℚ)
    (h₁m : o₁ ∈ [4, 3, 2, 1]) (_h₂m : o₂ ∈ [4, 3, 2, 1]) (_hlt : o₂ < o₁)
    (h₁ : orderEval mk hist o₁ = some pc₁)
    (_h₂ : orderEval mk hist o₂ = some pc₂)
    (_heq : pc₂.2 = pc₁.2)
    (hbefore : ∀ o' pc', o' ∈ [4, 3, 2, 1] → o₁ < o' →
      orderEval mk hist o' = some pc' → pc'.2 < pc₁.2)
    (hmax : ∀ o' pc', o' ∈ [4, 3, 2, 1] →
      orderEval mk hist o' = some pc' → pc'.2 ≤ pc₁.2) :
    predictPlayer mk hist = pc₁.1 := by
  have hpos : 0 < pc₁.2 := orderEval_conf_pos mk hist o₁ pc₁ h₁
  have hm : o₁ = 4 ∨ o₁ = 3 ∨ o₁ = 2 ∨ o₁ = 1 := by simpa using h₁m
  unfold predictPlayer
  rcases hm with rfl | rfl | rfl | rfl
  · rw [show ([4, 3, 2, 1] : List Nat) = [] ++ 4 :: [3, 2, 1] from rfl,
      predict_first_max mk hist [] [3, 2, 1] 4 pc₁ h₁
        (fun o' pc' h' => absurd h' (List.not_mem_nil o'))
        (fun o' pc' h' hoe => hmax o' pc' (List.mem_cons_of_mem 4 h') hoe) hpos]
  · rw [show ([4, 3, 2, 1] : List Nat) = [4] ++ 3 :: [2, 1] from rfl,
      predict_first_max mk hist [4] [2, 1] 3 pc₁ h₁
        (fun o' pc' h' hoe => by
          have h4 : o' = 4 := List.mem_singleton.mp h'
          subst h4
          exact hbefore 4 pc' (by simp) (by omega) hoe)
        (fun o' pc' h' hoe =>
          hmax o' pc' (List.mem_cons_of_mem 4 (List.mem_cons_of_mem 3 h')) hoe) hpos]
  · rw [show ([4, 3, 2, 1] : List Nat) = [4, 3] ++ 2 :: [1] from rfl,
      predict_first_max mk hist [4, 3] [1] 2 pc₁ h₁
        (fun o' pc' h' hoe => by
          have h43 : o' = 4 ∨ o' = 3 := by simpa using h'
          rcases h43 with rfl | rfl
          · exact hbefore 4 pc' (by simp) (by omega) hoe
          · exact hbefore 3 pc' (by simp) (by omega) hoe)
        (fun o' pc' h' hoe =>
          hmax o' pc'
            (List.mem_cons_of_mem 4 (List.mem_cons_of_mem 3
              (List.mem_cons_of_mem 2 h'))) hoe) hpos]
  · rw [show ([4, 3, 2, 1] : List Nat) = [4, 3, 2] ++ 1 :: [] from rfl,
      predict_first_max mk hist [4, 3, 2] [] 1 pc₁ h₁
        (fun o' pc' h' hoe => by
          have h432 : o' = 4 ∨ o' = 3 ∨ o' = 2 := by simpa using h'
          rcases h432 with rfl | rfl | rfl
          · exact hbefore 4 pc' (by simp) (by omega) hoe
          · exact hbefore 3 pc' (by simp) (by omega) hoe
          · exact hbefore 2 pc' (by simp) (by omega) hoe)
        (fun o' pc' h' => absurd h' (List.not_mem_nil o')) hpos]

/-- C3 amended witness: the concrete tied table from the counterexample,
where the higher order 2 beats the equally-confident order 1. -/
theorem predict_tie_prefers_higher_witness :
    predictPlayer exampleTable [0, 1] = ((2 : Int), (26 / 25 : ℚ)).1 :=
  predict_tie_prefers_higher exampleTable [0, 1] 2 1 (2, 26 / 25) (3, 26 / 25)
    (by simp) (by simp) (by omega) orderEval_ex2 orderEval_ex1 (by norm_num)
    (by
      intro o' pc' hm hgt hoe
      have h : o' = 4 ∨ o' = 3 ∨ o' = 2 ∨ o' = 1 := by simpa using hm
      rcases h with rfl | rfl | rfl | rfl
      · rw [orderEval_ex4] at hoe
        exact Option.noConfusion hoe
      · rw [orderEval_ex3] at hoe
        exact Option.noConfusion hoe
      · omega
      · omega)
    (by
      intro o' pc' hm hoe
      have h : o' = 4 ∨ o' = 3 ∨ o' = 2 ∨ o' = 1 := by simpa using hm
      rcases h with rfl | rfl | rfl | rfl
      · rw [orderEval_ex4] at hoe
        exact Option.noConfusion hoe
      · rw [orderEval_ex3] at hoe
        exact Option.noConfusion hoe
      · rw [orderEval_ex2] at hoe
        rw [← Option.some.inj hoe]
      · rw [orderEval_ex1] at hoe
        rw [← Option.some.inj hoe])

end PatternDuel

namespace DodgeArena

lemma hotspotScan_fold (hm : Nat → Nat → Nat) :
    ∀ (l : List (Nat × Nat)) (acc : Nat × Nat × Nat),
      acc.1 ≤ (l.foldl
        (fun acc p => if hm p.1 p.2 > acc.1 then (hm p.1 p.2, p.1, p.2) else acc)
        acc).1 ∧
      ∀ p, p ∈ l → hm p.1 p.2 ≤ (l.foldl
        (fun acc p => if hm p.1 p.2 > acc.1 then (hm p.1 p.2, p.1, p.2) else acc)
        acc).1 := by
  intro l
  induction l with
  | nil => exact fun acc => ⟨le_refl _, fun p hp => absurd hp (List.not_mem_nil p)⟩
  | cons q rest ih =>
    intro acc
    rw [List.foldl_cons]
    by_cases h : hm q.1 q.2 > acc.1
    · rw [if_pos h]
      refine ⟨le_trans (le_of_lt h) (ih (hm q.1 q.2, q.1, q.2)).1, ?_⟩
      intro p hp
      rcases List.mem_cons.mp hp with h' | h'
      · rw [h']; exact (ih (hm q.1 q.2, q.1, q.2)).1
      · exact (ih (hm q.1 q.2, q.1, q.2)).2 p h'
    · rw [if_neg h]
      refine ⟨(ih acc).1, ?_⟩
      intro p hp
      rcases List.mem_cons.mp hp with h' | h'
      · rw [h']; exact le_trans (Nat.le_of_not_lt h) (ih acc).1
      · exact (ih acc).2 p h'

lemma mem_cellList (i j : Nat) (hi : i < GRID) (hj : j < GRID) :
    (i, j) ∈ cellList := by
  simp only [cellList, List.mem_flatten, List.mem_map, List.mem_range]
  exact ⟨(List.range GRID).map (fun j => (i, j)), ⟨i, hi, rfl⟩,
    List.mem_map.mpr ⟨j, List.mem_range.mpr hj, rfl⟩⟩

lemma scanFold_capped (hm : Nat → Nat → Nat) (v : Nat)
    (hmax : ∀ i j, hm i j ≤ v) :
    ∀ l : List (Nat × Nat),
      l.foldl
        (fun acc p => if hm p.1 p.2 > acc.1 then (hm p.1 p.2, p.1, p.2) else acc)
        ((v, 1, 1) : Nat × Nat × Nat) = (v, 1, 1) := by
  intro l
  induction l with
  | nil => rfl
  | cons p rest ih =>
    rw [List.foldl_cons, if_neg (Nat.not_lt.mpr (hmax p.1 p.2))]
    exact ih

lemma scanFold_single (hm : Nat → Nat → Nat) (v : Nat) (hv : 0 < v)
    (hone : hm 1 1 = v) (hzero : ∀ i j, ¬(i = 1 ∧ j = 1) → hm i j = 0) :
    ∀ (l : List (Nat × Nat)) (acc : Nat × Nat × Nat), acc.1 = 0 →
      (l.foldl
        (fun acc p => if hm p.1 p.2 > acc.1 then (hm p.1 p.2, p.1, p.2) else acc)
        acc = acc ∧ (1, 1) ∉ l) ∨
      l.foldl
        (fun acc p => if hm p.1 p.2 > acc.1 then (hm p.1 p.2, p.1, p.2) else acc)
        acc = (v, 1, 1) := by
  have hmax : ∀ i j, hm i j ≤ v := by
    intro i j
    by_cases h : i = 1 ∧ j = 1
    · obtain ⟨h1, h2⟩ := h; subst h1; subst h2; omega
    · rw [hzero i j h]; omega
  intro l
  induction l with
  | nil => exact fun acc _ => Or.inl ⟨rfl, List.not_mem_nil _⟩
  | cons p rest ih =>
    intro acc hacc
    by_cases hp : p = (1, 1)
    · subst hp
      rw [List.foldl_cons]
      rw [if_pos (by simpa [hone, hacc] using hv)]
      exact Or.inr (by simpa [hone] using scanFold_capped hm v hmax rest)
    · have hz : hm p.1 p.2 = 0 := by
        apply hzero
        intro hcontra
        exact hp (Prod.ext hcontra.1 hcontra.2)
      rw [List.foldl_cons, if_neg (by omega)]
      rcases ih acc hacc with ⟨h1, h2⟩ | h1
      · refine Or.inl ⟨h1, ?_⟩
        intro hmem
        rcases List.mem_cons.mp hmem with h' | h'
        · exact hp h'.symm
        · exact h2 h'
      · exact Or.inr h1

lemma hotspotScan_single (v : Nat) (hv : 0 < v) :
    hotspotScan (fun i j => if i = 1 ∧ j = 1 then v else 0) = (v, 1, 1) := by
  unfold hotspotScan
  rcases scanFold_single (fun i j => if i = 1 ∧ j = 1 then v else 0) v hv
      (by simp) (fun i j h => by simp [h]) cellList (0, GRID / 2, GRID / 2) rfl with
    ⟨_, hnot⟩ | h
  · exact absurd (mem_cellList 1 1 (by norm_num [GRID]) (by norm_num [GRID])) hnot
  · exact h

lemma repeatObserve_closed : ∀ n : Nat,
    repeatObserve 35 25 n daFresh =
      { heatmap := fun i j => if i = 1 ∧ j = 1 then n else 0,
        totalSamples := n, score := 0, wave := 1, hp := 3,
        gameOver := false, playerVelHistory := [] } := by
  intro n
  induction n with
  | zero =>
    show daFresh = _
    unfold daFresh
    congr 1
    funext i j
    by_cases h : i = 1 ∧ j = 1 <;> simp [h]
  | succ n ih =>
    show updateHeatmap (repeatObserve 35 25 n daFresh) 35 25 = _
    rw [ih]
    unfold updateHeatmap
    have hx : ((35 : ℚ) / W * (GRID : ℚ)) = 1 := by norm_num [W, GRID]
    have hy : ((25 : ℚ) / H * (GRID : ℚ)) = 1 := by norm_num [H, GRID]
    rw [hx, hy, Int.floor_one]
    rw [if_pos (by norm_num [GRID])]
    congr 1
    funext i j
    by_cases h : i = 1 ∧ j = 1
    · simp [h, Int.toNat_one]
    · simp [h, Int.toNat_one]

/-- C9: hotspot confidence is 0 whenever the total sample count is at most
50; once it exceeds 50 it equals the maximum cell visit count divided by
the total; and concretely, after 100 observations all landing in grid cell
(1,1) the hotspot is that cell's centre with confidence 1, strictly greater
than the confidence 0 reported after only 10 such observations. -/
theorem hotspot_confidence (st : DAState) :
    (st.totalSamples ≤ 50 → (getHeatmapHotspot st).confidence = 0) ∧
    (50 < st.totalSamples →
      (getHeatmapHotspot st).confidence
          = ((hotspotScan st.heatmap).1 : ℚ) / (st.totalSamples : ℚ) ∧
      ∀ i j, i < GRID → j < GRID →
        st.heatmap i j ≤ (hotspotScan st.heatmap).1) ∧
    (getHeatmapHotspot (repeatObserve 35 25 100 daFresh)
        = { x := 105 / 2, y := 75 / 2, confidence := 1 } ∧
      hotspotScan (repeatObserve 35 25 100 daFresh).heatmap = (100, 1, 1) ∧
      (getHeatmapHotspot (repeatObserve 35 25 10 daFresh)).confidence = 0 ∧
      (getHeatmapHotspot (repeatObserve 35 25 10 daFresh)).confidence
        < (getHeatmapHotspot (repeatObserve 35 25 100 daFresh)).confidence) := by
  have hscan100 : hotspotScan
      (fun i j => if i = 1 ∧ j = 1 then (100 : Nat) else 0) = (100, 1, 1) :=
    hotspotScan_single 100 (by norm_num)
  refine ⟨?_, ?_, ?_, ?_, ?_, ?_⟩
  · intro h
    simp [getHeatmapHotspot, Nat.not_lt.mpr h]
  · intro h
    constructor
    · simp [getHeatmapHotspot, h]
    · intro i j hi hj
      exact (hotspotScan_fold st.heatmap cellList (0, GRID / 2, GRID / 2)).2
        (i, j) (mem_cellList i j hi hj)
  · rw [repeatObserve_closed 100]
    unfold getHeatmapHotspot
    dsimp only
    rw [hscan100]
    simp only [Hotspot.mk.injEq]
    norm_num [W, H, GRID]
  · rw [repeatObserve_closed 100]
    exact hscan100
  · rw [repeatObserve_closed 10]
    norm_num [getHeatmapHotspot]
  · rw [repeatObserve_closed 10, repeatObserve_closed 100]
    unfold getHeatmapHotspot
    dsimp only
    rw [hscan100]
    norm_num

/-- C9 witness: the below-threshold clause at the fresh state, and the
above-threshold clause (confidence formula and maximality at cell (1,1))
after 100 concrete observations. -/
theorem hotspot_confidence_witness :
    (getHeatmapHotspot daFresh).confidence = 0 ∧
    (getHeatmapHotspot (repeatObserve 35 25 100 daFresh)).confidence
      = ((hotspotScan (repeatObserve 35 25 100 daFresh).heatmap).1 : ℚ)
        / ((repeatObserve 35 25 100 daFresh).totalSamples : ℚ) ∧
    (repeatObserve 35 25 100 daFresh).heatmap 1 1
      ≤ (hotspotScan (repeatObserve 35 25 100 daFresh).heatmap).1 := by
  refine ⟨(hotspot_confidence daFresh).1 (by norm_num [daFresh]), ?_, ?_⟩
  · exact ((hotspot_confidence (repeatObserve 35 25 100 daFresh)).2.1
      (by rw [repeatObserve_closed]; norm_num)).1
  · exact ((hotspot_confidence (repeatObserve 35 25 100 daFresh)).2.1
      (by rw [repeatObserve_closed]; norm_num)).2 1 1
      (by norm_num [GRID]) (by norm_num [GRID])

end DodgeArena

namespace Connect4

lemma foldl_max_init_le {α : Type} [LinearOrder α] (f : Nat → α) :
    ∀ (l : List Nat) (m : α), m ≤ l.foldl (fun a c => max a (f c)) m := by
  intro l
  induction l with
  | nil => exact fun m => le_refl m
  | cons c rest ih =>
    intro m
    simp only [List.foldl_cons]
    exact le_trans (le_max_left m (f c)) (ih (max m (f c)))

lemma foldl_max_mono {α : Type} [LinearOrder α] (f : Nat → α) :
    ∀ (l : List Nat) (m m' : α), m ≤ m' →
      l.foldl (fun a c => max a (f c)) m ≤ l.foldl (fun a c => max a (f c)) m' := by
  intro l
  induction l with
  | nil => exact fun m m' h => h
  | cons c rest ih =>
    intro m m' h
    simp only [List.foldl_cons]
    exact ih _ _ (max_le_max h le_rfl)

lemma foldl_max_absorb {α : Type} [LinearOrder α] (f : Nat → α) :
    ∀ (l : List Nat) (x y : α),
      l.foldl (fun a c => max a (f c)) (max x y)
        = max x (l.foldl (fun a c => max a (f c)) y) := by
  intro l
  induction l with
  | nil => exact fun x y => rfl
  | cons c rest ih =>
    intro x y
    simp only [List.foldl_cons]
    rw [max_assoc, ih x (max y (f c))]

lemma foldl_min_init_ge {α : Type} [LinearOrder α] (f : Nat → α) :
    ∀ (l : List Nat) (m : α), l.foldl (fun a c => min a (f c)) m ≤ m := by
  intro l
  induction l with
  | nil => exact fun m => le_refl m
  | cons c rest ih =>
    intro m
    simp only [List.foldl_cons]
    exact le_trans (ih (min m (f c))) (min_le_left m (f c))

lemma foldl_min_mono {α : Type} [LinearOrder α] (f : Nat → α) :
    ∀ (l : List Nat) (m m' : α), m ≤ m' →
      l.foldl (fun a c => min a (f c)) m ≤ l.foldl (fun a c => min a (f c)) m' := by
  intro l
  induction l with
  | nil => exact fun m m' h => h
  | cons c rest ih =>
    intro m m' h
    simp only [List.foldl_cons]
    exact ih _ _ (min_le_min h le_rfl)

lemma foldl_min_absorb {α : Type} [LinearOrder α] (f : Nat → α) :
    ∀ (l : List Nat) (x y : α),
      l.foldl (fun a c => min a (f c)) (min x y)
        = min x (l.foldl (fun a c => min a (f c)) y) := by
  intro l
  induction l with
  | nil => exact fun x y => rfl
  | cons c rest ih =>
    intro x y
    simp only [List.foldl_cons]
    rw [min_assoc, ih x (min y (f c))]

lemma abMaxLoop_bounds (f : Nat → XQ) (child : Nat → XQ → XQ → XQ)
    (hchild : ∀ c a b, a < b →
      min b (f c) ≤ child c a b ∧ child c a b ≤ max a (f c))
    (beta : XQ) :
    ∀ (l : List Nat) (m a : XQ), m ≤ a → a < beta →
      min beta (l.foldl (fun acc c => max acc (f c)) m)
          ≤ abMaxLoop child beta l m a ∧
        abMaxLoop child beta l m a
          ≤ max a (l.foldl (fun acc c => max acc (f c)) m) := by
  intro l
  induction l with
  | nil =>
    intro m a hma hab
    exact ⟨min_le_right _ _, le_max_right a m⟩
  | cons c rest ih =>
    intro m a hma hab
    obtain ⟨hlo, hhi⟩ := hchild c a beta hab
    simp only [List.foldl_cons]
    show min beta (rest.foldl (fun acc c => max acc (f c)) (max m (f c)))
        ≤ (if beta ≤ max a (child c a beta) then max m (child c a beta)
           else abMaxLoop child beta rest (max m (child c a beta))
             (max a (child c a beta))) ∧
      (if beta ≤ max a (child c a beta) then max m (child c a beta)
         else abMaxLoop child beta rest (max m (child c a beta))
           (max a (child c a beta)))
        ≤ max a (rest.foldl (fun acc c => max acc (f c)) (max m (f c)))
    set ev := child c a beta with hev
    by_cases hcut : beta ≤ max a ev
    · rw [if_pos hcut]
      constructor
      · have hbe : beta ≤ ev := by
          rcases le_max_iff.mp hcut with h | h
          · exact absurd h (not_le.mpr hab)
          · exact h
        calc min beta (rest.foldl (fun acc c => max acc (f c)) (max m (f c)))
            ≤ beta := min_le_left _ _
          _ ≤ ev := hbe
          _ ≤ max m ev := le_max_right m ev
      · have h2 : max m ev ≤ max a (max m (f c)) := by
          apply max_le
          · exact le_trans (le_max_left m (f c)) (le_max_right a _)
          · exact le_trans hhi (max_le_max le_rfl (le_max_right m (f c)))
        exact le_trans h2
          (max_le_max le_rfl (foldl_max_init_le f rest (max m (f c))))
    · rw [if_neg hcut]
      have hab' : max a ev < beta := not_le.mp hcut
      have hma' : max m ev ≤ max a ev := max_le_max hma le_rfl
      obtain ⟨ihlo, ihhi⟩ := ih (max m ev) (max a ev) hma' hab'
      constructor
      · rcases le_total (f c) ev with hfe | hfe
        · have hmono : rest.foldl (fun acc c => max acc (f c)) (max m (f c))
              ≤ rest.foldl (fun acc c => max acc (f c)) (max m ev) :=
            foldl_max_mono f rest _ _ (max_le_max le_rfl hfe)
          exact le_trans (min_le_min le_rfl hmono) ihlo
        · rcases le_total beta (f c) with hbf | hbf
          · have hbe : beta ≤ ev := by
              rw [← min_eq_left hbf]; exact hlo
            have h3 : beta ≤ rest.foldl (fun acc c => max acc (f c)) (max m ev) :=
              le_trans (le_trans hbe (le_max_right m ev))
                (foldl_max_init_le f rest (max m ev))
            calc min beta (rest.foldl (fun acc c => max acc (f c)) (max m (f c)))
                ≤ beta := min_le_left _ _
              _ = min beta (rest.foldl (fun acc c => max acc (f c)) (max m ev)) :=
                  (min_eq_left h3).symm
              _ ≤ _ := ihlo
          · have hfc_le : f c ≤ ev := by
              rw [← min_eq_right hbf]; exact hlo
            have hmono : rest.foldl (fun acc c => max acc (f c)) (max m (f c))
                ≤ rest.foldl (fun acc c => max acc (f c)) (max m ev) :=
              foldl_max_mono f rest _ _ (max_le_max le_rfl hfc_le)
            exact le_trans (min_le_min le_rfl hmono) ihlo
      · refine le_trans ihhi (max_le ?_ ?_)
        · apply max_le (le_max_left a _)
          exact le_trans hhi (max_le_max le_rfl
            (le_trans (le_max_right m (f c)) (foldl_max_init_le f rest (max m (f c)))))
        · have h5 : max m ev ≤ max a (max m (f c)) := by
            apply max_le
            · exact le_trans (le_max_left m (f c)) (le_max_right a _)
            · exact le_trans hhi (max_le_max le_rfl (le_max_right m (f c)))
          calc rest.foldl (fun acc c => max acc (f c)) (max m ev)
              ≤ rest.foldl (fun acc c => max acc (f c)) (max a (max m (f c))) :=
                foldl_max_mono f rest _ _ h5
            _ = max a (rest.foldl (fun acc c => max acc (f c)) (max m (f c))) :=
                foldl_max_absorb f rest a (max m (f c))

end Connect4

namespace Connect4

lemma abMinLoop_bounds (f : Nat → XQ) (child : Nat → XQ → XQ → XQ)
    (hchild : ∀ c a b, a < b →
      min b (f c) ≤ child c a b ∧ child c a b ≤ max a (f c))
    (alpha : XQ) :
    ∀ (l : List Nat) (m bb : XQ), bb ≤ m → alpha < bb →
      min bb (l.foldl (fun acc c => min acc (f c)) m)
          ≤ abMinLoop child alpha l m bb ∧
        abMinLoop child alpha l m bb
          ≤ max alpha (l.foldl (fun acc c => min acc (f c)) m) := by
  intro l
  induction l with
  | nil =>
    intro m bb hbm hab
    exact ⟨min_le_right bb m, le_max_right alpha m⟩
  | cons c rest ih =>
    intro m bb hbm hab
    obtain ⟨hlo, hhi⟩ := hchild c alpha bb hab
    simp only [List.foldl_cons]
    show min bb (rest.foldl (fun acc c => min acc (f c)) (min m (f c)))
        ≤ (if min bb (child c alpha bb) ≤ alpha then min m (child c alpha bb)
           else abMinLoop child alpha rest (min m (child c alpha bb))
             (min bb (child c alpha bb))) ∧
      (if min bb (child c alpha bb) ≤ alpha then min m (child c alpha bb)
         else abMinLoop child alpha rest (min m (child c alpha bb))
           (min bb (child c alpha bb)))
        ≤ max alpha (rest.foldl (fun acc c => min acc (f c)) (min m (f c)))
    set ev := child c alpha bb with hev
    have hkey : min bb (min m (f c)) ≤ min m ev := by
      apply le_min
      · exact le_trans (min_le_right bb _) (min_le_left m (f c))
      · exact le_trans (min_le_min le_rfl (min_le_right m (f c))) hlo
    by_cases hcut : min bb ev ≤ alpha
    · rw [if_pos hcut]
      constructor
      · exact le_trans
          (min_le_min le_rfl (foldl_min_init_ge f rest (min m (f c)))) hkey
      · have hea : ev ≤ alpha := by
          rcases min_le_iff.mp hcut with h | h
          · exact absurd h (not_le.mpr hab)
          · exact h
        calc min m ev ≤ ev := min_le_right m ev
          _ ≤ alpha := hea
          _ ≤ max alpha (rest.foldl (fun acc c => min acc (f c)) (min m (f c))) :=
              le_max_left _ _
    · rw [if_neg hcut]
      have hab' : alpha < min bb ev := not_le.mp hcut
      have hmb' : min bb ev ≤ min m ev := min_le_min hbm le_rfl
      obtain ⟨ihlo, ihhi⟩ := ih (min m ev) (min bb ev) hmb' hab'
      constructor
      · refine le_trans (le_min ?_ ?_) ihlo
        · apply le_min (min_le_left bb _)
          exact le_trans
            (min_le_min le_rfl (le_trans (foldl_min_init_ge f rest (min m (f c)))
              (min_le_right m (f c)))) hlo
        · calc min bb (rest.foldl (fun acc c => min acc (f c)) (min m (f c)))
              = rest.foldl (fun acc c => min acc (f c)) (min bb (min m (f c))) :=
                (foldl_min_absorb f rest bb (min m (f c))).symm
            _ ≤ rest.foldl (fun acc c => min acc (f c)) (min m ev) :=
                foldl_min_mono f rest _ _ hkey
      · refine le_trans ihhi ?_
        rcases le_total ev (f c) with hfe | hfe
        · exact max_le_max le_rfl
            (foldl_min_mono f rest _ _ (min_le_min le_rfl hfe))
        · rcases le_total (f c) alpha with hfa | hfa
          · have hea : ev ≤ alpha := by
              have h' := hhi
              rwa [max_eq_left hfa] at h'
            have h6 : rest.foldl (fun acc c => min acc (f c)) (min m ev) ≤ alpha :=
              le_trans (le_trans (foldl_min_init_ge f rest _)
                (min_le_right m ev)) hea
            exact max_le (le_max_left alpha _) (le_trans h6 (le_max_left alpha _))
          · have hef : ev ≤ f c := by
              have h' := hhi
              rwa [max_eq_right hfa] at h'
            exact max_le_max le_rfl
              (foldl_min_mono f rest _ _ (min_le_min le_rfl hef))

end Connect4

namespace Connect4

lemma minimax_bounds (ow : Nat → ℚ) :
    ∀ (depth : Nat) (b : Board) (alpha beta : XQ) (maximizing : Bool),
      alpha < beta →
      min beta (minimaxUnpruned ow depth b maximizing)
          ≤ minimax ow depth b alpha beta maximizing ∧
        minimax ow depth b alpha beta maximizing
          ≤ max alpha (minimaxUnpruned ow depth b maximizing) := by
  intro depth
  induction depth with
  | zero =>
    intro b alpha beta maximizing _
    have heq : minimax ow 0 b alpha beta maximizing
        = minimaxUnpruned ow 0 b maximizing := by
      simp only [minimax, minimaxUnpruned]
    rw [heq]
    exact ⟨min_le_right _ _, le_max_right _ _⟩
  | succ d ih =>
    intro b alpha beta maximizing hab
    by_cases hw2 : checkWin b 2 = true
    · have heq : minimax ow (d + 1) b alpha beta maximizing
          = minimaxUnpruned ow (d + 1) b maximizing := by
        simp only [minimax, minimaxUnpruned, hw2, if_true]
      rw [heq]
      exact ⟨min_le_right _ _, le_max_right _ _⟩
    by_cases hw1 : checkWin b 1 = true
    · have heq : minimax ow (d + 1) b alpha beta maximizing
          = minimaxUnpruned ow (d + 1) b maximizing := by
        simp only [minimax, minimaxUnpruned, hw2, hw1, if_true, if_false,
          Bool.false_eq_true]
      rw [heq]
      exact ⟨min_le_right _ _, le_max_right _ _⟩
    by_cases hemp : (getValidCols b).isEmpty = true
    · have heq : minimax ow (d + 1) b alpha beta maximizing
          = minimaxUnpruned ow (d + 1) b maximizing := by
        simp only [minimax, minimaxUnpruned, hw2, hw1, hemp, if_true, if_false,
          Bool.false_eq_true]
      rw [heq]
      exact ⟨min_le_right _ _, le_max_right _ _⟩
    cases maximizing with
    | false =>
      have hmm : minimax ow (d + 1) b alpha beta false
          = abMinLoop (fun col a' b' => minimax ow d (dropPiece b col 1) a' b' true)
              alpha (getValidCols b) ⊤ beta := by
        simp only [minimax, hw2, hw1, hemp, if_false, Bool.false_eq_true,
          Bool.false_ne_true, if_true]
      have hpu : minimaxUnpruned ow (d + 1) b false
          = (getValidCols b).foldl
              (fun acc col => min acc (minimaxUnpruned ow d (dropPiece b col 1) true))
              ⊤ := by
        simp only [minimaxUnpruned, hw2, hw1, hemp, if_false, Bool.false_eq_true,
          Bool.false_ne_true, if_true]
      rw [hmm, hpu]
      exact abMinLoop_bounds
        (fun col => minimaxUnpruned ow d (dropPiece b col 1) true)
        (fun col a' b' => minimax ow d (dropPiece b col 1) a' b' true)
        (fun c a' b' h => ih (dropPiece b c 1) a' b' true h)
        alpha (getValidCols b) ⊤ beta le_top hab
    | true =>
      have hmm : minimax ow (d + 1) b alpha beta true
          = abMaxLoop (fun col a' b' => minimax ow d (dropPiece b col 2) a' b' false)
              beta (getValidCols b) ⊥ alpha := by
        simp only [minimax, hw2, hw1, hemp, if_false, Bool.false_eq_true, if_true]
      have hpu : minimaxUnpruned ow (d + 1) b true
          = (getValidCols b).foldl
              (fun acc col => max acc (minimaxUnpruned ow d (dropPiece b col 2) false))
              ⊥ := by
        simp only [minimaxUnpruned, hw2, hw1, hemp, if_false, Bool.false_eq_true,
          if_true]
      rw [hmm, hpu]
      exact abMaxLoop_bounds
        (fun col => minimaxUnpruned ow d (dropPiece b col 2) false)
        (fun col a' b' => minimax ow d (dropPiece b col 2) a' b' false)
        (fun c a' b' h => ih (dropPiece b c 2) a' b' false h)
        beta (getValidCols b) ⊥ alpha bot_le hab

lemma minimax_full_window (ow : Nat → ℚ) (depth : Nat) (b : Board)
    (maximizing : Bool) :
    minimax ow depth b ⊥ ⊤ maximizing = minimaxUnpruned ow depth b maximizing := by
  obtain ⟨h1, h2⟩ := minimax_bounds ow depth b ⊥ ⊤ maximizing bot_lt_top
  rw [min_eq_right le_top] at h1
  rw [max_eq_right bot_le] at h2
  exact le_antisymm h2 h1

lemma aiBestLoop_congr (f g : Nat → XQ) (h : ∀ c, f c = g c) :
    ∀ (l : List Nat) (bc : Nat) (bs : XQ),
      aiBestLoop f l bc bs = aiBestLoop g l bc bs := by
  intro l
  induction l with
  | nil => exact fun bc bs => rfl
  | cons c rest ih =>
    intro bc bs
    show (if bs < f c then aiBestLoop f rest c (f c)
          else aiBestLoop f rest bc bs)
        = (if bs < g c then aiBestLoop g rest c (g c)
          else aiBestLoop g rest bc bs)
    rw [h c]
    by_cases hlt : bs < g c
    · rw [if_pos hlt, if_pos hlt]
      exact ih c (g c)
    · rw [if_neg hlt, if_neg hlt]
      exact ih bc bs

/-- C1: for every board, every learned opening-weight table and every
search depth, the column chosen by `aiMove` — whose root loop evaluates each
valid column by alpha-beta-pruned `minimax` with the initial window
`(-Infinity, Infinity)` — equals the column chosen by the same loop run
over exhaustive unpruned minimax at the same depth: pruning never changes
the selected action. -/
theorem aiMove_eq_unpruned (ow : Nat → ℚ) (aiDepth : Nat) (b : Board) :
    aiMove ow aiDepth b = aiMoveUnpruned ow aiDepth b := by
  unfold aiMove aiMoveUnpruned
  exact aiBestLoop_congr _ _
    (fun col => minimax_full_window ow (aiDepth - 1) (dropPiece b col 2) false)
    (getValidCols b) ((getValidCols b).headD 0) ⊥

end Connect4
